import Mathlib

/-!
Verification of the sitemap-traversal and filename-derivation logic of
`scripts/generate_docs_config.py`.

The Python source is shallowly embedded: pure helpers become Lean functions on
`String` / `List Char`; the byte source (network / filesystem) becomes an
explicit environment record; the mutable `visited` set of `gather_urls` is
threaded explicitly; raised `SitemapError`s become `Except String` results
carrying the message text.  Strings are modelled through their `data : List
Char` field; bytes are modelled as `List Nat`.
-/

namespace DocsConfig

/-- Model of Python `s.startswith(pre)`: the characters of `pre` form a prefix
of the characters of `s`. -/
def startsWithStr (s pre : String) : Bool :=
  pre.data.isPrefixOf s.data

/-- Model of Python `s.endswith(suf)`: the characters of `suf` form a suffix
of the characters of `s`. -/
def endsWithStr (s suf : String) : Bool :=
  suf.data.isSuffixOf s.data

/-- Model of Python `s.lower()` (ASCII case folding, as used on ASCII sitemap
tags and URL path segments). -/
def lowerStr (s : String) : String :=
  ⟨s.data.map Char.toLower⟩

/-- Model of Python `s.strip()` : remove leading and trailing whitespace. -/
def trimStr (s : String) : String :=
  ⟨((s.data.dropWhile Char.isWhitespace).reverse.dropWhile Char.isWhitespace).reverse⟩

/-- First-match association-list lookup; models a Python `dict` whose updates
are modelled by consing (the most recent binding shadows older ones). -/
def assocLookup {α : Type} : List (String × α) → String → Option α
  | [], _ => none
  | (k, v) :: rest, key => if key = k then some v else assocLookup rest key

/-- Source `_is_url` (generate_docs_config.py:51-52): a location is a URL when
it starts with `http://` or `https://`. -/
def _is_url (location : String) : Bool :=
  startsWithStr location "http://" || startsWithStr location "https://"

/-- The world the byte reader runs against: what a network fetch of a URL
returns (`none` = transport failure) and what the filesystem holds
(`none` = no such file).  Payloads are raw bytes (`List Nat`). -/
structure Env where
  net : String → Option (List Nat)
  fs : String → Option (List Nat)

/-- Source `_read_bytes` (generate_docs_config.py:55-68), translated clause by
clause: URLs are fetched from the network, other locations are read from the
filesystem, a missing file raises `SitemapError` with the source's message.
The function returns whatever bytes the environment holds, verbatim: the
source has no decompression branch of any kind. -/
def _read_bytes (env : Env) (location : String) : Except String (List Nat) :=
  if _is_url location then
    match env.net location with
    | some b => Except.ok b
    | none => Except.error ("URL fetch failed: " ++ location)
  else
    match env.fs location with
    | some b => Except.ok b
    | none => Except.error ("Sitemap source not found: " ++ location)

/-- Modelled from the spec: the gzip-detection signal of spec section 4.1
(header content-encoding/content-type containing "gzip", OR filename suffix
`.gz`, OR leading two bytes `0x1F 0x8B`).  No corresponding code exists in
`src/scripts/generate_docs_config.py`. -/
def gzipDetected (headerGzip : Bool) (location : String) (payload : List Nat) : Bool :=
  headerGzip || endsWithStr location ".gz" || payload.take 2 = [31, 139]

/-- C1: the byte reader does not decompress gzip payloads.  For every
filesystem location whose stored bytes begin with the gzip magic `0x1F 0x8B`
(so that the spec's detection triggers), `_read_bytes` returns the stored
bytes verbatim — still gzip-compressed — because the source has no
decompression branch at all.  This contradicts the claim (and the repo's own
regression test `test_gather_urls_accepts_compressed_sitemap`). -/
theorem c1_read_bytes_returns_gzip_bytes_verbatim
    (env : Env) (location : String) (b : List Nat)
    (hnoturl : _is_url location = false)
    (hfs : env.fs location = some b)
    (hmagic : b.take 2 = [31, 139]) :
    gzipDetected false location b = true ∧ _read_bytes env location = Except.ok b := by
  constructor
  · simp [gzipDetected, hmagic]
  · simp [_read_bytes, hnoturl, hfs]

/-- Concrete instance of the C1 theorem: a gzipped fixture file
(`compressed-urlset.xml.gz`, leading bytes `1F 8B 08 00`) is returned
compressed, byte for byte. -/
theorem c1_read_bytes_returns_gzip_bytes_verbatim_witness :
    gzipDetected false "compressed-urlset.xml.gz" [31, 139, 8, 0, 60, 117, 114, 108] = true ∧
      _read_bytes
        ⟨fun _ => none,
         fun l => if l = "compressed-urlset.xml.gz" then some [31, 139, 8, 0, 60, 117, 114, 108] else none⟩
        "compressed-urlset.xml.gz" =
        Except.ok [31, 139, 8, 0, 60, 117, 114, 108] :=
  c1_read_bytes_returns_gzip_bytes_verbatim
    ⟨fun _ => none,
     fun l => if l = "compressed-urlset.xml.gz" then some [31, 139, 8, 0, 60, 117, 114, 108] else none⟩
    "compressed-urlset.xml.gz" [31, 139, 8, 0, 60, 117, 114, 108]
    (by decide) (by decide) (by decide)

/-! ## XML tree model and `_iter_xml_text` / `_parse_sitemap` classification -/

/-- A parsed XML element as handed back by `xml.etree.ElementTree`: a tag, an
optional text node, and child elements.  The XML parser itself is a black box
(spec section 1); everything the source inspects is covered by this shape. -/
inductive XmlElem : Type where
  | node (tag : String) (text : Option String) (children : List XmlElem) : XmlElem

/-- The tag of an element. -/
def XmlElem.tag : XmlElem → String
  | .node t _ _ => t

/-- The text of an element (`None` in Python becomes `none`). -/
def XmlElem.text : XmlElem → Option String
  | .node _ tx _ => tx

/-- The children of an element. -/
def XmlElem.children : XmlElem → List XmlElem
  | .node _ _ cs => cs

mutual

/-- Model of `root.iter()`: the element itself followed by all descendants in
document (preorder) order. -/
def iterElems : XmlElem → List XmlElem
  | .node t tx cs => .node t tx cs :: iterForest cs

/-- Preorder traversal of a forest of elements. -/
def iterForest : List XmlElem → List XmlElem
  | [] => []
  | c :: cs => iterElems c ++ iterForest cs

end

/-- Source `_iter_xml_text` (generate_docs_config.py:71-76): every element of
`root.iter()` whose lower-cased tag ends with `tag_suffix` and whose text is
truthy contributes its stripped text when that is non-empty. -/
def _iter_xml_text (root : XmlElem) (tagSuffix : String) : List String :=
  (iterElems root).filterMap fun e =>
    match e.text with
    | none => none
    | some t =>
      if endsWithStr (lowerStr e.tag) tagSuffix ∧ t ≠ "" then
        if trimStr t ≠ "" then some (trimStr t) else none
      else none

/-- Source `_parse_sitemap` after the XML black box returned a tree
(generate_docs_config.py:90-95): classify the root tag by lower-cased suffix
and collect the `loc` texts; any other root raises the unsupported-format
`SitemapError`. -/
def classifyParse (root : XmlElem) : Except String (String × List String) :=
  let tag := lowerStr root.tag
  if endsWithStr tag "sitemapindex" then Except.ok ("index", _iter_xml_text root "loc")
  else if endsWithStr tag "urlset" then Except.ok ("urlset", _iter_xml_text root "loc")
  else Except.error ("Unsupported sitemap tag: " ++ root.tag)

lemma not_endsWith_sitemapindex_of_endsWith_urlset {s : String}
    (h : endsWithStr s "urlset" = true) : endsWithStr s "sitemapindex" = false := by
  by_contra hc
  rw [Bool.not_eq_false] at hc
  rw [endsWithStr, List.isSuffixOf_iff_suffix] at h hc
  rcases List.suffix_or_suffix_of_suffix h hc with h1 | h1
  · exact absurd h1 (by decide)
  · exact absurd h1 (by decide)

lemma mem_iter_text_of_mem {root e : XmlElem} {t : String}
    (he : e ∈ iterElems root) (ht : e.text = some t)
    (htag : endsWithStr (lowerStr e.tag) "loc" = true)
    (hne : trimStr t ≠ "") :
    trimStr t ∈ _iter_xml_text root "loc" := by
  have htne : t ≠ "" := by
    intro h
    apply hne
    rw [h]
    rfl
  rw [_iter_xml_text, List.mem_filterMap]
  refine ⟨e, he, ?_⟩
  rw [ht]
  simp [htag, htne, hne]

/-- C10: tag recognition is by lower-cased suffix.  Any root whose lower-cased
tag ends with `"urlset"` (for example `"notaurlset"`) is classified as a
urlset — never the unsupported-format error — and any element of the tree
whose lower-cased tag ends with `"loc"` (for example `"backloc"`) and whose
text has non-empty trim contributes that trimmed text to the returned
locations. -/
theorem c10_suffix_tag_recognition (root : XmlElem)
    (hroot : endsWithStr (lowerStr root.tag) "urlset" = true) :
    classifyParse root = Except.ok ("urlset", _iter_xml_text root "loc") ∧
      ∀ e ∈ iterElems root, ∀ t : String, e.text = some t →
        endsWithStr (lowerStr e.tag) "loc" = true → trimStr t ≠ "" →
        trimStr t ∈ _iter_xml_text root "loc" := by
  constructor
  · rw [classifyParse]
    rw [not_endsWith_sitemapindex_of_endsWith_urlset hroot]
    simp [hroot]
  · intro e he t ht htag hne
    exact mem_iter_text_of_mem he ht htag hne

/-- Concrete instance of C10: root tag `notaurlset` is accepted as a urlset
and the text of the `backloc` child is discovered. -/
theorem c10_suffix_tag_recognition_witness :
    classifyParse
        (.node "notaurlset" none [.node "backloc" (some " https://example.com/docs/intro ") []]) =
      Except.ok ("urlset", ["https://example.com/docs/intro"]) ∧
      "https://example.com/docs/intro" ∈
        _iter_xml_text
          (.node "notaurlset" none [.node "backloc" (some " https://example.com/docs/intro ") []])
          "loc" := by
  have h := c10_suffix_tag_recognition
    (.node "notaurlset" none [.node "backloc" (some " https://example.com/docs/intro ") []])
    (by decide)
  have hmem : (XmlElem.node "backloc" (some " https://example.com/docs/intro ") []) ∈
      iterElems (.node "notaurlset" none
        [.node "backloc" (some " https://example.com/docs/intro ") []]) := by
    rw [show iterElems (.node "notaurlset" none
        [.node "backloc" (some " https://example.com/docs/intro ") []]) =
        [.node "notaurlset" none [.node "backloc" (some " https://example.com/docs/intro ") []],
         .node "backloc" (some " https://example.com/docs/intro ") []] from rfl]
    simp
  constructor
  · rw [h.1]
    rfl
  · have := h.2 (.node "backloc" (some " https://example.com/docs/intro ") [])
      hmem " https://example.com/docs/intro " rfl (by decide) (by decide)
    simpa using this

/-! ## C2: base-URL resolution (spec-modelled)

The repository's second Resolver variant parses each sitemap with the fetched
location as a base URL and resolves the collected `loc` texts by URL join
(spec sections 4.2 and 4.3, and the design note about two near-duplicate
implementations).  That variant's code is not under `src/`, so the join is
modelled here from the spec's words. -/

/-- Keep everything up to and including the last `'/'` of a character list
(the "directory" of a URL path); empty when no slash occurs. -/
def dropAfterLastSlash : List Char → List Char
  | [] => []
  | c :: rest =>
    if '/' ∈ rest then c :: dropAfterLastSlash rest
    else if c = '/' then ['/'] else []

/-- Modelled from the spec: the base URL up to and including its last slash,
against which a relative path reference is resolved. -/
def dirnameOf (base : String) : String :=
  ⟨dropAfterLastSlash base.data⟩

/-- Modelled from the spec: the scheme-plus-authority part of an `http` /
`https` base URL, against which an absolute-path reference (leading `/`) is
resolved. -/
def schemeHostOf (base : String) : String :=
  if startsWithStr base "http://" then
    ⟨"http://".data ++ (base.data.drop 7).takeWhile (fun c => c != '/')⟩
  else if startsWithStr base "https://" then
    ⟨"https://".data ++ (base.data.drop 8).takeWhile (fun c => c != '/')⟩
  else
    ⟨base.data.takeWhile (fun c => c != '/')⟩

/-- Modelled from the spec: URL-join semantics — an absolute reference is kept
as-is, an absolute-path reference is resolved against the base's
scheme-plus-authority, and any other (relative) reference is resolved against
the base's directory. -/
def urljoin (base ref : String) : String :=
  if _is_url ref then ref
  else if startsWithStr ref "/" then schemeHostOf base ++ ref
  else dirnameOf base ++ ref

/-- Modelled from the spec: `_parse_sitemap` of the second variant, which
receives the fetched location as base URL and resolves every collected text
against it using URL-join semantics. -/
def parse_with_base (base : String) (root : XmlElem) : Except String (String × List String) :=
  match classifyParse root with
  | Except.error e => Except.error e
  | Except.ok (kind, locs) => Except.ok (kind, locs.map (urljoin base))

lemma startsWithStr_append_of (s pre rest : String) (h : startsWithStr s pre = true) :
    startsWithStr (s ++ rest) pre = true := by
  rw [startsWithStr, List.isPrefixOf_iff_prefix] at h ⊢
  rw [String.data_append]
  exact h.trans (List.prefix_append _ _)

lemma dropAfterLastSlash_append (l₁ l₂ : List Char) (h : '/' ∈ l₂) :
    dropAfterLastSlash (l₁ ++ l₂) = l₁ ++ dropAfterLastSlash l₂ := by
  induction l₁ with
  | nil => rfl
  | cons c rest ih =>
    rw [List.cons_append, dropAfterLastSlash]
    have hm : '/' ∈ rest ++ l₂ := List.mem_append_right rest h
    rw [if_pos hm, ih]
    rfl

lemma dropAfterLastSlash_slash_cons (r : List Char) :
    ∃ u, dropAfterLastSlash ('/' :: r) = '/' :: u := by
  rw [dropAfterLastSlash]
  by_cases h : '/' ∈ r
  · rw [if_pos h]
    exact ⟨_, rfl⟩
  · rw [if_neg h, if_pos rfl]
    exact ⟨[], rfl⟩

lemma startsWith_of_data_eq (s : String) (pre : String) (u : List Char)
    (h : s.data = pre.data ++ u) : startsWithStr s pre = true := by
  rw [startsWithStr, List.isPrefixOf_iff_prefix, h]
  exact List.prefix_append _ _

lemma dirnameOf_scheme (base : String) (h : _is_url base = true) :
    _is_url (dirnameOf base) = true := by
  rw [_is_url, Bool.or_eq_true] at h
  rcases h with h | h
  · rw [startsWithStr, List.isPrefixOf_iff_prefix] at h
    obtain ⟨r, hr⟩ := h
    have hr' : base.data = "http:/".data ++ ('/' :: r) := by
      rw [← hr]
      rfl
    obtain ⟨u, hu⟩ := dropAfterLastSlash_slash_cons r
    have : dropAfterLastSlash base.data = "http:/".data ++ ('/' :: u) := by
      rw [hr', dropAfterLastSlash_append _ _ (List.mem_cons_self _ _), hu]
    rw [_is_url, Bool.or_eq_true]
    left
    exact startsWith_of_data_eq _ _ u (by rw [dirnameOf]; exact this)
  · rw [startsWithStr, List.isPrefixOf_iff_prefix] at h
    obtain ⟨r, hr⟩ := h
    have hr' : base.data = "https:/".data ++ ('/' :: r) := by
      rw [← hr]
      rfl
    obtain ⟨u, hu⟩ := dropAfterLastSlash_slash_cons r
    have : dropAfterLastSlash base.data = "https:/".data ++ ('/' :: u) := by
      rw [hr', dropAfterLastSlash_append _ _ (List.mem_cons_self _ _), hu]
    rw [_is_url, Bool.or_eq_true]
    right
    exact startsWith_of_data_eq _ _ u (by rw [dirnameOf]; exact this)

lemma schemeHostOf_scheme (base : String) (h : _is_url base = true) :
    _is_url (schemeHostOf base) = true := by
  rw [_is_url, Bool.or_eq_true] at h
  rw [_is_url, Bool.or_eq_true]
  rcases h with h | h
  · left
    rw [schemeHostOf, if_pos h]
    exact startsWith_of_data_eq _ "http://" _ rfl
  · by_cases h1 : startsWithStr base "http://" = true
    · left
      rw [schemeHostOf, if_pos h1]
      exact startsWith_of_data_eq _ "http://" _ rfl
    · right
      rw [schemeHostOf, if_neg h1, if_pos h]
      exact startsWith_of_data_eq _ "https://" _ rfl

lemma urljoin_absolute (base ref : String) (h : _is_url base = true) :
    _is_url (urljoin base ref) = true := by
  rw [urljoin]
  by_cases h1 : _is_url ref = true
  · rw [if_pos h1]
    exact h1
  · rw [if_neg h1]
    by_cases h2 : startsWithStr ref "/" = true
    · rw [if_pos h2]
      rcases Bool.or_eq_true _ _ |>.mp (schemeHostOf_scheme base h) with h3 | h3
      · rw [_is_url, Bool.or_eq_true]
        exact Or.inl (startsWithStr_append_of _ _ _ h3)
      · rw [_is_url, Bool.or_eq_true]
        exact Or.inr (startsWithStr_append_of _ _ _ h3)
    · rw [if_neg h2]
      rcases Bool.or_eq_true _ _ |>.mp (dirnameOf_scheme base h) with h3 | h3
      · rw [_is_url, Bool.or_eq_true]
        exact Or.inl (startsWithStr_append_of _ _ _ h3)
      · rw [_is_url, Bool.or_eq_true]
        exact Or.inr (startsWithStr_append_of _ _ _ h3)

/-- C2 (spec-modelled): with a base URL supplied, every collected `loc` text
is resolved against it by URL join, so every returned location is absolute
whenever the base is; and a path-only reference collected from a sitemap
fetched from `https://x.com/sub/index.xml` resolves to
`https://x.com/sub/<ref>`, an absolute URL under `https://x.com/sub/`. -/
theorem c2_relative_loc_resolution :
    (∀ base root kind locs r, _is_url base = true →
        parse_with_base base root = Except.ok (kind, locs) → r ∈ locs →
        _is_url r = true) ∧
      ∀ root kind rawLocs, classifyParse root = Except.ok (kind, rawLocs) →
        parse_with_base "https://x.com/sub/index.xml" root =
            Except.ok (kind, rawLocs.map (urljoin "https://x.com/sub/index.xml")) ∧
          ∀ t ∈ rawLocs, _is_url t = false → startsWithStr t "/" = false →
            urljoin "https://x.com/sub/index.xml" t = "https://x.com/sub/" ++ t ∧
              startsWithStr (urljoin "https://x.com/sub/index.xml" t) "https://x.com/sub/" = true := by
  constructor
  · intro base root kind locs r hbase hparse hr
    rw [parse_with_base] at hparse
    cases hcl : classifyParse root with
    | error e => rw [hcl] at hparse; cases hparse
    | ok p =>
      rw [hcl] at hparse
      obtain ⟨k0, locs0⟩ := p
      simp only [Except.ok.injEq, Prod.mk.injEq] at hparse
      obtain ⟨hk, hl⟩ := hparse
      rw [← hl] at hr
      obtain ⟨t, _, ht⟩ := List.mem_map.mp hr
      rw [← ht]
      exact urljoin_absolute base t hbase
  · intro root kind rawLocs hcl
    constructor
    · rw [parse_with_base, hcl]
    · intro t _ habs hsl
      have hjoin : urljoin "https://x.com/sub/index.xml" t = "https://x.com/sub/" ++ t := by
        rw [urljoin, if_neg (by rw [habs]; exact Bool.false_ne_true),
          if_neg (by rw [hsl]; exact Bool.false_ne_true)]
        rfl
      refine ⟨hjoin, ?_⟩
      rw [hjoin]
      exact startsWithStr_append_of _ _ _ (by decide)

/-- Concrete instance of C2: a `loc` holding the path-only reference `page1`
in a sitemap fetched from `https://x.com/sub/index.xml` resolves to
`https://x.com/sub/page1`. -/
theorem c2_relative_loc_resolution_witness :
    urljoin "https://x.com/sub/index.xml" "page1" = "https://x.com/sub/page1" ∧
      startsWithStr (urljoin "https://x.com/sub/index.xml" "page1") "https://x.com/sub/" = true := by
  have h := (c2_relative_loc_resolution.2
      (.node "urlset" none [.node "loc" (some "page1") []]) "urlset" ["page1"]
      (by rfl)).2 "page1" (by simp) (by decide) (by decide)
  exact ⟨h.1.trans (by rfl), h.2⟩

/-! ## `gather_urls` (generate_docs_config.py:124-143)

`gather_urls` depends on the outside world only through `_parse_sitemap`'s
result for each location, so the world is modelled as a finite association
list `Web` from location to the parsed `(kind, entries)` pair; a missing
location is the fetch/parse failure.  The Python recursion's shared mutable
`visited` set is threaded explicitly, and the recursion is driven by a fuel
counter; `gather_fuel_sufficient` below proves the fuel chosen by
`gather_urls` can never run out, which is exactly the source's termination
argument (spec section 4.3). -/

/-- The finite world of sitemap documents: location ↦ parsed `(kind, entries)`. -/
def Web : Type := List (String × (String × List String))

/-- The locations the world knows. -/
def keysOf (w : Web) : List String :=
  w.map Prod.fst

/-- Combine the outcome of one recursive call with the processing of the
remaining entries: errors and fuel exhaustion abort immediately (fail-fast),
collected URLs are concatenated and the visited set is threaded. -/
def gatherCombine
    (first : Option (Except String (List String × List String)))
    (restF : List String → Option (Except String (List String × List String))) :
    Option (Except String (List String × List String)) :=
  match first with
  | none => none
  | some (Except.error msg) => some (Except.error msg)
  | some (Except.ok (us, v')) =>
    match restF v' with
    | none => none
    | some (Except.error msg) => some (Except.error msg)
    | some (Except.ok (us', v'')) => some (Except.ok (us ++ us', v''))

/-- Processing of one document's entry list: the Python `for entry in
entries: urls.extend(gather_urls(entry, …, visited))` loop, with `g` the
recursive call at the remaining fuel. -/
def gatherListAux
    (g : String → List String → Option (Except String (List String × List String))) :
    List String → List String → Option (Except String (List String × List String))
  | [], v => some (Except.ok ([], v))
  | e :: rest, v => gatherCombine (g e v) (gatherListAux g rest)

/-- What `gather_urls` does with one parse result: an index document recurses
into its entries (via `g`, the recursive call at the remaining fuel), a
urlset document keeps the entries matching at least one allowed prefix
(`any(entry.startswith(prefix) for prefix in allowed_prefixes)`), and a
failed lookup is the fetch/parse `SitemapError`. -/
def gatherStep
    (g : String → List String → Option (Except String (List String × List String)))
    (p : List String) (s : String) (v : List String) :
    Option (String × List String) → Option (Except String (List String × List String))
  | none => some (Except.error ("Failed to fetch " ++ s))
  | some (kind, entries) =>
    if kind = "index" then gatherListAux g entries (s :: v)
    else
      some (Except.ok
        (entries.filter (fun e => p.any fun pre => startsWithStr e pre), s :: v))

/-- Source `gather_urls` body (generate_docs_config.py:124-143) at a given
fuel: an already-visited source yields `[]`, otherwise the source is marked
visited, parsed, and handled by `gatherStep`.  `none` means the fuel ran
out. -/
def gatherF : Nat → Web → List String → String → List String →
    Option (Except String (List String × List String))
  | 0, _, _, _, _ => none
  | fuel + 1, w, p, s, v =>
    if s ∈ v then some (Except.ok ([], v))
    else gatherStep (gatherF fuel w p) p s v (assocLookup w s)

/-- Fuel with which the resolver can never stall: one more than the number of
known locations. -/
def bound (w : Web) : Nat :=
  (keysOf w).length + 1

/-- Source `gather_urls(source, allowed_prefixes)` as called from `main`
(fresh empty visited set). -/
def gather_urls (w : Web) (p : List String) (source : String) : Except String (List String) :=
  match gatherF (bound w) w p source [] with
  | some (Except.ok (us, _)) => Except.ok us
  | some (Except.error e) => Except.error e
  | none => Except.error "resolver ran out of fuel"

/-- C7: a leaf URL from a urlset document enters the result exactly when it
starts with at least one allowed prefix.  For any world whose `source` parses
as a urlset, `gather_urls` returns precisely the entries matching some
prefix, and membership in that result is equivalent to exact string-prefix
matching. -/
theorem c7_prefix_filter (w : Web) (p : List String) (s : String) (entries : List String)
    (h : assocLookup w s = some ("urlset", entries)) :
    gather_urls w p s =
        Except.ok (entries.filter (fun e => p.any fun pre => startsWithStr e pre)) ∧
      ∀ e, (e ∈ entries.filter (fun e' => p.any fun pre => startsWithStr e' pre) ↔
        e ∈ entries ∧ ∃ pre ∈ p, startsWithStr e pre = true) := by
  constructor
  · rw [gather_urls, bound, gatherF]
    simp [h, gatherStep]
  · intro e
    simp [List.mem_filter, List.any_eq_true]

/-- Concrete instance of C7: with allowed prefix `https://example.com/docs/`,
the leaf `https://example.com/blog/post` is excluded and
`https://example.com/docs/intro` is included. -/
theorem c7_prefix_filter_witness :
    gather_urls
        [("root", ("urlset", ["https://example.com/blog/post", "https://example.com/docs/intro"]))]
        ["https://example.com/docs/"] "root" =
        Except.ok ["https://example.com/docs/intro"] ∧
      "https://example.com/docs/intro" ∈ ["https://example.com/docs/intro"] ∧
      "https://example.com/blog/post" ∉ ["https://example.com/docs/intro"] := by
  have h := c7_prefix_filter
    [("root", ("urlset", ["https://example.com/blog/post", "https://example.com/docs/intro"]))]
    ["https://example.com/docs/"] "root"
    ["https://example.com/blog/post", "https://example.com/docs/intro"] (by rfl)
  exact ⟨h.1.trans (by rfl), by simp, by simp⟩

/-- C3 counterexample: `gather_urls` itself returns neither a deduplicated
nor a sorted list.  A urlset listing the same matching URL twice, with a
smaller URL in between, is returned verbatim in traversal order. -/
theorem c3_gather_not_sorted_dedup_counterexample :
    gather_urls
        [("idx", ("urlset",
          ["https://e.com/docs/b", "https://e.com/docs/a", "https://e.com/docs/b"]))]
        ["https://e.com/docs/"] "idx" =
        Except.ok ["https://e.com/docs/b", "https://e.com/docs/a", "https://e.com/docs/b"] ∧
      ¬ List.Nodup ["https://e.com/docs/b", "https://e.com/docs/a", "https://e.com/docs/b"] ∧
      ¬ List.Sorted (· ≤ ·)
          ["https://e.com/docs/b", "https://e.com/docs/a", "https://e.com/docs/b"] := by
  refine ⟨by rfl, by decide, ?_⟩
  intro hs
  have h1 : ("https://e.com/docs/b" : String) ≤ "https://e.com/docs/a" :=
    List.rel_of_sorted_cons hs _ (by simp)
  rw [String.le_iff_toList_le] at h1
  exact absurd h1 (by decide)

/-! ## `_slugify_segment` (generate_docs_config.py:98-100)

The source computes `re.sub(r"[^a-z0-9]+", "-", segment.lower()).strip("-")`
and falls back to `"section"` when the result is empty.  `subRuns` models the
regex substitution (each maximal run of characters outside `[a-z0-9]` becomes
one hyphen), `stripHyphens` models `.strip("-")`.  `slugifySpec` re-states
the spec's description independently — the maximal alphanumeric runs joined
by single hyphens — and `slugify_eq_spec` proves both agree on every
input. -/

/-- A character the regex class `[a-z0-9]` accepts. -/
def isSlugChar (c : Char) : Bool :=
  ('a' ≤ c && c ≤ 'z') || ('0' ≤ c && c ≤ '9')

/-- Model of `re.sub(r"[^a-z0-9]+", "-", ·)`: scan left to right, keep
accepted characters, emit one `'-'` at the start of each rejected run
(`inRun` records being inside a rejected run). -/
def subRuns : List Char → Bool → List Char
  | [], _ => []
  | c :: rest, inRun =>
    if isSlugChar c then c :: subRuns rest false
    else if inRun then subRuns rest true
    else '-' :: subRuns rest true

/-- Model of Python `.strip("-")`: drop leading and trailing hyphens. -/
def stripHyphens (l : List Char) : List Char :=
  ((l.dropWhile (fun c => c == '-')).reverse.dropWhile (fun c => c == '-')).reverse

/-- Source `_slugify_segment`: lower-case, substitute rejected runs, strip
hyphens, and return `"section"` when the outcome is empty. -/
def _slugify_segment (s : String) : String :=
  let slug := stripHyphens (subRuns (s.data.map Char.toLower) false)
  if slug = [] then "section" else ⟨slug⟩

/-- The maximal runs of `[a-z0-9]` characters of a list, in order. -/
def slugWords : List Char → List (List Char)
  | [] => []
  | c :: rest =>
    if isSlugChar c then
      (c :: rest.takeWhile isSlugChar) :: slugWords (rest.dropWhile isSlugChar)
    else slugWords rest
termination_by l => l.length
decreasing_by
  · have := (List.dropWhile_sublist (p := isSlugChar) (l := rest)).length_le
    simp only [List.length_cons]
    omega
  · simp

/-- Join character runs with single hyphens. -/
def joinHyphen : List (List Char) → List Char
  | [] => []
  | [w] => w
  | w :: x :: xs => w ++ '-' :: joinHyphen (x :: xs)

/-- The claim's description of slugification, stated independently of the
source: lower-case, keep the maximal `[a-z0-9]` runs joined by single
hyphens (which is exactly "replace every rejected run by one hyphen and
strip leading/trailing hyphens"), with literal fallback `"section"` for an
empty outcome. -/
def slugifySpec (s : String) : String :=
  match slugWords (s.data.map Char.toLower) with
  | [] => "section"
  | w :: ws => ⟨joinHyphen (w :: ws)⟩

/-- Is the first character rejected by `[a-z0-9]`? -/
def startsJunk : List Char → Bool
  | [] => false
  | c :: _ => !isSlugChar c

/-- Is the last character rejected by `[a-z0-9]`? -/
def endsJunk : List Char → Bool
  | [] => false
  | [c] => !isSlugChar c
  | _ :: c :: rest => endsJunk (c :: rest)

/-- The trailing hyphen the substitution leaves when the input ends in a
rejected run that follows at least one accepted run. -/
def tailHyph (l : List Char) : List Char :=
  if slugWords l = [] then [] else if endsJunk l = true then ['-'] else []

lemma subRuns_false_eq (l : List Char) :
    subRuns l false = (if startsJunk l = true then ['-'] else []) ++ subRuns l true := by
  cases l with
  | nil => rfl
  | cons c rest =>
    by_cases h : isSlugChar c = true
    · simp [subRuns, startsJunk, h]
    · rw [Bool.not_eq_true] at h
      simp [subRuns, startsJunk, h]

lemma slugWords_nil : slugWords [] = [] := by
  rw [slugWords]

lemma slugWords_cons_slug (c : Char) (rest : List Char) (hc : isSlugChar c = true) :
    slugWords (c :: rest) =
      (c :: rest.takeWhile isSlugChar) :: slugWords (rest.dropWhile isSlugChar) := by
  rw [slugWords, if_pos hc]

lemma slugWords_cons_junk (c : Char) (rest : List Char) (hc : isSlugChar c = false) :
    slugWords (c :: rest) = slugWords rest := by
  rw [slugWords]
  simp [hc]

lemma subRuns_false_split (l : List Char) :
    subRuns l false = l.takeWhile isSlugChar ++ subRuns (l.dropWhile isSlugChar) false := by
  induction l with
  | nil => rfl
  | cons c rest ih =>
    by_cases hc : isSlugChar c = true
    · rw [List.takeWhile_cons, List.dropWhile_cons]
      simp only [hc, if_pos]
      rw [subRuns, if_pos hc, ih]
      rfl
    · rw [Bool.not_eq_true] at hc
      rw [List.takeWhile_cons, List.dropWhile_cons]
      simp [hc]

lemma startsJunk_dropWhile (l : List Char) :
    l.dropWhile isSlugChar = [] ∨ startsJunk (l.dropWhile isSlugChar) = true := by
  induction l with
  | nil => exact Or.inl rfl
  | cons c rest ih =>
    by_cases h : isSlugChar c = true
    · rw [List.dropWhile_cons, if_pos h]
      exact ih
    · rw [List.dropWhile_cons, if_neg h]
      right
      rw [startsJunk]
      simpa using h

lemma endsJunk_cons_cons (a b : Char) (l : List Char) :
    endsJunk (a :: b :: l) = endsJunk (b :: l) := rfl

lemma endsJunk_all_slug (l : List Char) (h : ∀ x ∈ l, isSlugChar x = true) :
    endsJunk l = false := by
  induction l with
  | nil => rfl
  | cons c rest ih =>
    cases rest with
    | nil =>
      rw [endsJunk]
      simp [h c (by simp)]
    | cons b t =>
      rw [endsJunk_cons_cons]
      exact ih fun x hx => h x (by simp [hx])

lemma endsJunk_all_junk (l : List Char) (h : ∀ x ∈ l, isSlugChar x = false) (hne : l ≠ []) :
    endsJunk l = true := by
  induction l with
  | nil => exact absurd rfl hne
  | cons c rest ih =>
    cases rest with
    | nil =>
      rw [endsJunk]
      simp [h c (by simp)]
    | cons b t =>
      rw [endsJunk_cons_cons]
      exact ih (fun x hx => h x (by simp [hx])) (by simp)

lemma endsJunk_append (l₁ l₂ : List Char) (h : l₂ ≠ []) :
    endsJunk (l₁ ++ l₂) = endsJunk l₂ := by
  induction l₁ with
  | nil => rfl
  | cons c rest ih =>
    cases hr : rest ++ l₂ with
    | nil =>
      exact absurd (List.append_eq_nil.mp hr).2 h
    | cons b t =>
      rw [List.cons_append, hr, endsJunk_cons_cons, ← hr, ih]

lemma slugWords_all_junk (l : List Char) (h : ∀ x ∈ l, isSlugChar x = false) :
    slugWords l = [] := by
  induction l with
  | nil => exact slugWords_nil
  | cons c rest ih =>
    rw [slugWords_cons_junk c rest (h c (by simp))]
    exact ih fun x hx => h x (by simp [hx])

lemma slugWords_eq_nil_imp (l : List Char) (h : slugWords l = []) :
    ∀ x ∈ l, isSlugChar x = false := by
  induction l with
  | nil => simp
  | cons c rest ih =>
    by_cases hc : isSlugChar c = true
    · rw [slugWords_cons_slug c rest hc] at h
      cases h
    · rw [Bool.not_eq_true] at hc
      rw [slugWords_cons_junk c rest hc] at h
      intro x hx
      rcases List.mem_cons.mp hx with h1 | h1
      · rw [h1]
        exact hc
      · exact ih h x h1

lemma slugWords_good : ∀ (n : Nat) (l : List Char), l.length ≤ n →
    ∀ w ∈ slugWords l, w ≠ [] ∧ ∀ x ∈ w, isSlugChar x = true := by
  intro n
  induction n with
  | zero =>
    intro l hl w hw
    rw [List.length_eq_zero.mp (Nat.le_zero.mp hl), slugWords_nil] at hw
    cases hw
  | succ m ih =>
    intro l hl w hw
    cases l with
    | nil =>
      rw [slugWords_nil] at hw
      cases hw
    | cons c rest =>
      have hrest : rest.length ≤ m := by
        simp only [List.length_cons] at hl
        omega
      by_cases hc : isSlugChar c = true
      · rw [slugWords_cons_slug c rest hc] at hw
        rcases List.mem_cons.mp hw with h1 | h1
        · subst h1
          refine ⟨by simp, ?_⟩
          intro x hx
          rcases List.mem_cons.mp hx with h2 | h2
          · rw [h2]
            exact hc
          · exact List.mem_takeWhile_imp h2
        · have hlen : (rest.dropWhile isSlugChar).length ≤ m := by
            have := (List.dropWhile_sublist (p := isSlugChar) (l := rest)).length_le
            omega
          exact ih _ hlen w h1
      · rw [Bool.not_eq_true] at hc
        rw [slugWords_cons_junk c rest hc] at hw
        exact ih _ hrest w hw

lemma tailHyph_of_words_nil (l : List Char) (h : slugWords l = []) : tailHyph l = [] := by
  rw [tailHyph, if_pos h]

lemma tailHyph_of_words_ne (l : List Char) (h : slugWords l ≠ []) :
    tailHyph l = if endsJunk l = true then ['-'] else [] := by
  rw [tailHyph, if_neg h]

lemma subRuns_true_spec : ∀ (n : Nat) (l : List Char), l.length ≤ n →
    subRuns l true = joinHyphen (slugWords l) ++ tailHyph l := by
  intro n
  induction n with
  | zero =>
    intro l hl
    rw [List.length_eq_zero.mp (Nat.le_zero.mp hl)]
    rw [slugWords_nil, tailHyph, slugWords_nil]
    rfl
  | succ m ih =>
    intro l hl
    cases l with
    | nil =>
      rw [slugWords_nil, tailHyph, slugWords_nil]
      rfl
    | cons c rest =>
      have hrest : rest.length ≤ m := by
        simp only [List.length_cons] at hl
        omega
      by_cases hc : isSlugChar c = true
      · -- accepted head: the head starts a word
        have hwchars : ∀ x ∈ rest.takeWhile isSlugChar, isSlugChar x = true :=
          fun x hx => List.mem_takeWhile_imp hx
        have hlen' : (rest.dropWhile isSlugChar).length ≤ m := by
          have := (List.dropWhile_sublist (p := isSlugChar) (l := rest)).length_le
          omega
        have hwords := slugWords_cons_slug c rest hc
        have hsub : subRuns (c :: rest) true =
            c :: (rest.takeWhile isSlugChar ++ subRuns (rest.dropWhile isSlugChar) false) := by
          rw [subRuns, if_pos hc, subRuns_false_split rest]
        rcases startsJunk_dropWhile rest with hnil | hjunk
        · -- no rejected tail: the whole rest is one word
          have hwrest : rest.takeWhile isSlugChar = rest := by
            have h1 := List.takeWhile_append_dropWhile (p := isSlugChar) (l := rest)
            rw [hnil, List.append_nil] at h1
            exact h1
          have hall : ∀ x ∈ c :: rest, isSlugChar x = true := by
            intro x hx
            rcases List.mem_cons.mp hx with h1 | h1
            · rw [h1]; exact hc
            · rw [← hwrest] at h1
              exact hwchars x h1
          have htail : tailHyph (c :: rest) = [] := by
            rw [tailHyph_of_words_ne _ (by rw [hwords]; simp), endsJunk_all_slug _ hall]
            simp
          rw [hsub, hnil, hwords, hnil, slugWords_nil, htail, joinHyphen]
          simp [subRuns]
        · -- a rejected run follows the word
          have hr'ne : rest.dropWhile isSlugChar ≠ [] := by
            intro hcon
            rw [hcon] at hjunk
            cases hjunk
          have hIH := ih _ hlen'
          have hfalse : subRuns (rest.dropWhile isSlugChar) false =
              ['-'] ++ subRuns (rest.dropWhile isSlugChar) true := by
            rw [subRuns_false_eq, if_pos hjunk]
          have hends : endsJunk (c :: rest) = endsJunk (rest.dropWhile isSlugChar) := by
            have h1 := endsJunk_append (c :: rest.takeWhile isSlugChar)
              (rest.dropWhile isSlugChar) hr'ne
            rw [List.cons_append, List.takeWhile_append_dropWhile] at h1
            exact h1
          by_cases hw0 : slugWords (rest.dropWhile isSlugChar) = []
          · -- the rejected run reaches the end of the input
            have hej : endsJunk (rest.dropWhile isSlugChar) = true :=
              endsJunk_all_junk _ (slugWords_eq_nil_imp _ hw0) hr'ne
            have htail : tailHyph (c :: rest) = ['-'] := by
              rw [tailHyph_of_words_ne _ (by rw [hwords]; simp), hends, hej]
              simp
            rw [hsub, hfalse, hIH, hw0, tailHyph_of_words_nil _ hw0, hwords, hw0, htail,
              joinHyphen, joinHyphen]
            simp
          · -- more words follow the rejected run
            obtain ⟨w₂, ws₂, hws⟩ : ∃ w₂ ws₂,
                slugWords (rest.dropWhile isSlugChar) = w₂ :: ws₂ := by
              cases hx : slugWords (rest.dropWhile isSlugChar) with
              | nil => exact absurd hx hw0
              | cons a b => exact ⟨a, b, rfl⟩
            have htail : tailHyph (c :: rest) =
                if endsJunk (rest.dropWhile isSlugChar) = true then ['-'] else [] := by
              rw [tailHyph_of_words_ne _ (by rw [hwords]; simp), hends]
            rw [hsub, hfalse, hIH, tailHyph_of_words_ne _ hw0, hwords, htail, hws, joinHyphen]
            simp
      · -- rejected head: it contributes nothing after the substitution
        rw [Bool.not_eq_true] at hc
        have hsub : subRuns (c :: rest) true = subRuns rest true := by
          rw [subRuns, hc]
          simp
        have hwords := slugWords_cons_junk c rest hc
        cases rest with
        | nil =>
          rw [hsub, hwords, slugWords_nil, tailHyph, slugWords_cons_junk c [] hc, slugWords_nil]
          rfl
        | cons b t =>
          have htail : tailHyph (c :: b :: t) = tailHyph (b :: t) := by
            rw [tailHyph, tailHyph, hwords, endsJunk_cons_cons]
          rw [hsub, hwords, ih _ hrest, htail]

lemma dropWhile_append_all {p : Char → Bool} (a b : List Char)
    (ha : ∀ x ∈ a, p x = true) :
    (a ++ b).dropWhile p = b.dropWhile p := by
  induction a with
  | nil => rfl
  | cons c rest ih =>
    rw [List.cons_append, List.dropWhile_cons, if_pos (ha c (by simp))]
    exact ih fun x hx => ha x (by simp [hx])

lemma dropWhile_all {p : Char → Bool} (a : List Char) (ha : ∀ x ∈ a, p x = true) :
    a.dropWhile p = [] := by
  have := dropWhile_append_all a [] ha
  simpa using this

lemma joinHyphen_chars (ws : List (List Char))
    (hws : ∀ w ∈ ws, w ≠ [] ∧ ∀ x ∈ w, isSlugChar x = true) :
    ∀ x ∈ joinHyphen ws, isSlugChar x = true ∨ x = '-' := by
  induction ws with
  | nil => simp [joinHyphen]
  | cons w t ih =>
    cases t with
    | nil =>
      intro x hx
      rw [joinHyphen] at hx
      exact Or.inl ((hws w (by simp)).2 x hx)
    | cons w₂ t₂ =>
      intro x hx
      rw [joinHyphen] at hx
      rcases List.mem_append.mp hx with h1 | h1
      · exact Or.inl ((hws w (by simp)).2 x h1)
      · rcases List.mem_cons.mp h1 with h2 | h2
        · exact Or.inr h2
        · exact ih (fun v hv => hws v (by simp [hv])) x h2

lemma joinHyphen_head (ws : List (List Char)) (w₀ : List Char) (t : List (List Char))
    (hne : ws = w₀ :: t)
    (hws : ∀ w ∈ ws, w ≠ [] ∧ ∀ x ∈ w, isSlugChar x = true) :
    ∃ c cs, joinHyphen ws = c :: cs ∧ isSlugChar c = true := by
  subst hne
  obtain ⟨hne₀, hchars₀⟩ := hws w₀ (by simp)
  obtain ⟨c, cs', hcs⟩ : ∃ c cs', w₀ = c :: cs' := by
    cases hx : w₀ with
    | nil => exact absurd hx hne₀
    | cons a b => exact ⟨a, b, rfl⟩
  cases t with
  | nil =>
    exact ⟨c, cs', by rw [joinHyphen, hcs], hchars₀ c (by rw [hcs]; simp)⟩
  | cons w₂ t₂ =>
    refine ⟨c, cs' ++ '-' :: joinHyphen (w₂ :: t₂), ?_, hchars₀ c (by rw [hcs]; simp)⟩
    rw [joinHyphen, hcs]
    rfl

lemma joinHyphen_last : ∀ ws : List (List Char), ws ≠ [] →
    (∀ w ∈ ws, w ≠ [] ∧ ∀ x ∈ w, isSlugChar x = true) →
    ∃ c cs, (joinHyphen ws).reverse = c :: cs ∧ isSlugChar c = true := by
  intro ws
  induction ws with
  | nil =>
    intro h _
    exact absurd rfl h
  | cons w ws' ih =>
    intro _ hws
    cases ws' with
    | nil =>
      obtain ⟨hne₀, hchars₀⟩ := hws w (by simp)
      obtain ⟨c, cs, hcs⟩ : ∃ c cs, w.reverse = c :: cs := by
        cases hx : w.reverse with
        | nil => exact absurd (by simpa using hx) hne₀
        | cons a b => exact ⟨a, b, rfl⟩
      refine ⟨c, cs, by rw [joinHyphen, hcs], ?_⟩
      have : c ∈ w := by
        rw [← List.mem_reverse, hcs]
        simp
      exact hchars₀ c this
    | cons w₂ t₂ =>
      obtain ⟨c, cs, hcs, hslug⟩ := ih (by simp)
        (fun v hv => hws v (List.mem_cons_of_mem _ hv))
      refine ⟨c, cs ++ ('-' :: w.reverse), ?_, hslug⟩
      rw [joinHyphen, List.reverse_append, List.reverse_cons]
      rw [hcs]
      simp

lemma stripHyphens_wrap (a mid b : List Char)
    (ha : ∀ x ∈ a, (x == '-') = true) (hb : ∀ x ∈ b, (x == '-') = true)
    (hh : ∃ c cs, mid = c :: cs ∧ (c == '-') = false)
    (hl : ∃ c cs, mid.reverse = c :: cs ∧ (c == '-') = false) :
    stripHyphens (a ++ mid ++ b) = mid := by
  obtain ⟨c, cs, hmid, hc⟩ := hh
  obtain ⟨d, ds, hmidr, hd⟩ := hl
  rw [stripHyphens, List.append_assoc, dropWhile_append_all a _ ha]
  rw [hmid, List.cons_append, List.dropWhile_cons, if_neg (by simp [hc]), ← List.cons_append,
    ← hmid]
  rw [List.reverse_append, dropWhile_append_all _ _ (fun x hx => hb x (List.mem_reverse.mp hx))]
  rw [hmidr, List.dropWhile_cons, if_neg (by simp [hd]), ← hmidr]
  simp

lemma stripHyphens_all (a : List Char) (ha : ∀ x ∈ a, (x == '-') = true) :
    stripHyphens a = [] := by
  rw [stripHyphens, dropWhile_all a ha]
  rfl

lemma slug_core_eq (l : List Char) :
    stripHyphens (subRuns l false) = joinHyphen (slugWords l) := by
  have hS := subRuns_true_spec l.length l (le_refl _)
  have hF := subRuns_false_eq l
  by_cases h0 : slugWords l = []
  · have hS' : subRuns l true = [] := by
      rw [hS, h0, tailHyph_of_words_nil l h0]
      simp [joinHyphen]
    rw [hF, hS', List.append_nil, h0, joinHyphen]
    apply stripHyphens_all
    intro x hx
    by_cases hj : startsJunk l = true
    · rw [if_pos hj] at hx
      simp [List.mem_singleton.mp hx]
    · rw [if_neg hj] at hx
      cases hx
  · obtain ⟨w₀, t, hws⟩ : ∃ w₀ t, slugWords l = w₀ :: t := by
      cases hx : slugWords l with
      | nil => exact absurd hx h0
      | cons a b => exact ⟨a, b, rfl⟩
    have hgood := slugWords_good l.length l (le_refl _)
    have hmid_h := joinHyphen_head (slugWords l) w₀ t hws hgood
    have hmid_l := joinHyphen_last (slugWords l) (by rw [hws]; simp) hgood
    have hwrap := stripHyphens_wrap
      (if startsJunk l = true then ['-'] else []) (joinHyphen (slugWords l)) (tailHyph l)
      (by
        intro x hx
        by_cases hj : startsJunk l = true
        · rw [if_pos hj] at hx
          simp [List.mem_singleton.mp hx]
        · rw [if_neg hj] at hx
          cases hx)
      (by
        intro x hx
        rw [tailHyph, if_neg h0] at hx
        by_cases he : endsJunk l = true
        · rw [if_pos he] at hx
          simp [List.mem_singleton.mp hx]
        · rw [if_neg he] at hx
          cases hx)
      (by
        obtain ⟨c, cs, hcs, hc⟩ := hmid_h
        refine ⟨c, cs, hcs, ?_⟩
        simp only [beq_eq_false_iff_ne, ne_eq]
        intro hcon
        rw [hcon] at hc
        exact absurd hc (by decide))
      (by
        obtain ⟨c, cs, hcs, hc⟩ := hmid_l
        refine ⟨c, cs, hcs, ?_⟩
        simp only [beq_eq_false_iff_ne, ne_eq]
        intro hcon
        rw [hcon] at hc
        exact absurd hc (by decide))
    have hgoal : subRuns l false =
        (if startsJunk l = true then ['-'] else []) ++ joinHyphen (slugWords l) ++ tailHyph l := by
      rw [hF, hS, ← List.append_assoc]
    rw [hgoal]
    exact hwrap

/-- C5 counterexample to the "exactly when" half of the claim: on the input
`"section"` the lowercase/substitute/strip steps already produce the
non-empty result `"section"`, yet the function returns the string
`"section"`; so "returns `section` exactly when the steps' result is empty"
fails in the only-if direction. -/
theorem c5_section_iff_counterexample :
    _slugify_segment "section" = "section" ∧
      stripHyphens (subRuns ("section".data.map Char.toLower) false) ≠ [] := by
  exact ⟨by rfl, by decide⟩

/-- C5, amended: slugification lower-cases the segment, replaces every
maximal run of characters outside `[a-z0-9]` by a single hyphen, strips
leading and trailing hyphens — equivalently, it joins the maximal accepted
runs with single hyphens — and returns the literal `"section"` when that
result is empty. -/
theorem c5_slugify_eq_spec (s : String) : _slugify_segment s = slugifySpec s := by
  rw [_slugify_segment, slugifySpec]
  simp only [slug_core_eq]
  cases hx : slugWords (s.data.map Char.toLower) with
  | nil =>
    rw [joinHyphen]
    simp
  | cons w t =>
    have hgood := slugWords_good (s.data.map Char.toLower).length _ (le_refl _)
    rw [hx] at hgood
    obtain ⟨c, cs, hcs, _⟩ := joinHyphen_head (w :: t) w t rfl hgood
    simp [hcs]

/-! ## `_url_to_filename` and `build_mapping` (generate_docs_config.py:103-151)

The collision registry `existing : Dict[str, int]` becomes an association
list updated by consing; `f"{stem}_{counter}.md"` needs a decimal rendering
of the counter, modelled by `natRepr` (digits of the number, most significant
first), whose injectivity feeds the pigeonhole argument that the collision
loop always finds a free name. -/

/-- The decimal digit character of `d` (`0 ↦ '0'`, …, `9 ↦ '9'`). -/
def digitCh (d : Nat) : Char := Char.ofNat (48 + d)

/-- Decimal rendering of a natural number, as Python's string interpolation
prints it: its base-10 digits, most significant first. -/
def natRepr (n : Nat) : String :=
  if n = 0 then "0" else ⟨((Nat.digits 10 n).map digitCh).reverse⟩

lemma digitCh_injOn {a b : Nat} (ha : a < 10) (hb : b < 10) (h : digitCh a = digitCh b) :
    a = b := by
  interval_cases a <;> interval_cases b <;> first | rfl | exact absurd h (by decide)

lemma map_digitCh_inj : ∀ l₁ l₂ : List Nat, (∀ x ∈ l₁, x < 10) → (∀ x ∈ l₂, x < 10) →
    l₁.map digitCh = l₂.map digitCh → l₁ = l₂ := by
  intro l₁
  induction l₁ with
  | nil =>
    intro l₂ _ _ h
    cases l₂ with
    | nil => rfl
    | cons b t => cases h
  | cons a t₁ ih =>
    intro l₂ h₁ h₂ h
    cases l₂ with
    | nil => cases h
    | cons b t₂ =>
      simp only [List.map_cons, List.cons.injEq] at h
      have hab : a = b := digitCh_injOn (h₁ a (by simp)) (h₂ b (by simp)) h.1
      rw [hab, ih t₂ (fun x hx => h₁ x (by simp [hx])) (fun x hx => h₂ x (by simp [hx])) h.2]

lemma natRepr_inj : ∀ a b : Nat, natRepr a = natRepr b → a = b := by
  have key : ∀ n : Nat, n ≠ 0 → natRepr n ≠ "0" := by
    intro n hn hcon
    rw [natRepr, if_neg hn] at hcon
    have hdata : ((Nat.digits 10 n).map digitCh).reverse = ['0'] := congrArg String.data hcon
    have : (Nat.digits 10 n).map digitCh = ['0'] := by
      rw [← List.reverse_inj, hdata]
      rfl
    have hdig : Nat.digits 10 n = [0] := by
      cases hd : Nat.digits 10 n with
      | nil =>
        rw [hd] at this
        cases this
      | cons d t =>
        cases t with
        | nil =>
          rw [hd] at this
          simp only [List.map_cons, List.map_nil, List.cons.injEq] at this
          have hd10 : d < 10 := Nat.digits_lt_base (by norm_num) (by rw [hd]; simp)
          have : d = 0 := digitCh_injOn hd10 (by norm_num) (by rw [this.1]; decide)
          rw [this]
        | cons d₂ t₂ =>
          rw [hd] at this
          simp at this
    have := Nat.ofDigits_digits 10 n
    rw [hdig] at this
    simp [Nat.ofDigits] at this
    exact hn this.symm
  intro a b h
  by_cases ha : a = 0
  · by_cases hb : b = 0
    · rw [ha, hb]
    · subst ha
      exact absurd h.symm (key b hb)
  · by_cases hb : b = 0
    · subst hb
      exact absurd h (key a ha)
    · rw [natRepr, natRepr, if_neg ha, if_neg hb] at h
      have hdata := congrArg String.data h
      simp only [List.reverse_inj] at hdata
      have hdig := map_digitCh_inj _ _
        (fun x hx => Nat.digits_lt_base (by norm_num) hx)
        (fun x hx => Nat.digits_lt_base (by norm_num) hx) hdata
      have h1 := Nat.ofDigits_digits 10 a
      rw [hdig, Nat.ofDigits_digits] at h1
      exact h1.symm

/-- The plain candidate filename `f"{stem}.md"`. -/
def mkCand (stem : String) : String := stem ++ ".md"

/-- The disambiguated candidate filename `f"{stem}_{counter}.md"`. -/
def mkCandN (stem : String) (k : Nat) : String := stem ++ "_" ++ natRepr k ++ ".md"

lemma mkCandN_inj (stem : String) {k₁ k₂ : Nat} (h : mkCandN stem k₁ = mkCandN stem k₂) :
    k₁ = k₂ := by
  have hdata := congrArg String.data h
  simp only [mkCandN, String.data_append, List.append_assoc] at hdata
  have h1 := List.append_cancel_left hdata
  have h2 := List.append_cancel_left h1
  have h3 := List.append_cancel_right h2
  exact natRepr_inj k₁ k₂ (by
    have : (⟨(natRepr k₁).data⟩ : String) = ⟨(natRepr k₂).data⟩ := by rw [h3]
    simpa using this)

lemma assocLookup_ne_none_mem {α : Type} (l : List (String × α)) (key : String)
    (h : assocLookup l key ≠ none) : key ∈ l.map Prod.fst := by
  induction l with
  | nil => exact absurd rfl h
  | cons p rest ih =>
    obtain ⟨k, v⟩ := p
    rw [assocLookup] at h
    by_cases hk : key = k
    · simp [hk]
    · rw [if_neg hk] at h
      simp [ih h]

lemma assocLookup_some_mem_pair {α : Type} (l : List (String × α)) (key : String) (v : α)
    (h : assocLookup l key = some v) : (key, v) ∈ l := by
  induction l with
  | nil => cases h
  | cons p rest ih =>
    obtain ⟨k, w⟩ := p
    rw [assocLookup] at h
    by_cases hk : key = k
    · rw [if_pos hk] at h
      subst hk
      simp only [Option.some.injEq] at h
      simp [h]
    · rw [if_neg hk] at h
      simp [ih h]

lemma assocLookup_cons_none {α : Type} (k key : String) (v : α) (l : List (String × α))
    (h : assocLookup ((k, v) :: l) key = none) : assocLookup l key = none := by
  rw [assocLookup] at h
  by_cases hk : key = k
  · rw [if_pos hk] at h
    cases h
  · rwa [if_neg hk] at h

/-- The disambiguation loop always terminates: some numbered candidate above
any starting counter is absent from the finite registry. -/
lemma freeCounter_exists (stem : String) (existing : List (String × Nat)) (c : Nat) :
    ∃ i, assocLookup existing (mkCandN stem (c + 1 + i)) = none := by
  by_contra hcon
  push_neg at hcon
  have hinj : Function.Injective (fun i => mkCandN stem (c + 1 + i)) := by
    intro i j hij
    have := mkCandN_inj stem hij
    omega
  have hnodup : ((List.range (existing.length + 1)).map
      (fun i => mkCandN stem (c + 1 + i))).Nodup :=
    (List.nodup_range _).map hinj
  have hsub : ((List.range (existing.length + 1)).map (fun i => mkCandN stem (c + 1 + i))) ⊆
      existing.map Prod.fst := by
    intro x hx
    obtain ⟨i, _, hi⟩ := List.mem_map.mp hx
    rw [← hi]
    exact assocLookup_ne_none_mem _ _ (hcon i)
  have hlen := (List.subperm_of_subset hnodup hsub).length_le
  simp at hlen

/-- Split a character list at the first occurrence of `c`: the part before,
and (when `c` occurs) the part after. -/
def breakAtChar (c : Char) : List Char → List Char × Option (List Char)
  | [] => ([], none)
  | x :: xs =>
    if x = c then ([], some xs)
    else
      let r := breakAtChar c xs
      (x :: r.1, r.2)

/-- The remainder of a character list after the first occurrence of `pat`. -/
def afterSeq (pat : List Char) : List Char → Option (List Char)
  | [] => none
  | x :: xs =>
    if pat.isPrefixOf (x :: xs) then some ((x :: xs).drop pat.length)
    else afterSeq pat xs

/-- Model of the two fields of `urllib.parse.urlparse(url)` the source reads:
`path` and `fragment`.  The fragment is everything after the first `#`; a
query (after `?`) is discarded; with a scheme-and-authority prefix the path
starts at the first `/` after the authority, otherwise the remainder itself
is the path. -/
def _urlparse (url : String) : String × String :=
  let brk := breakAtChar '#' url.data
  let fragment : String := match brk.2 with | none => "" | some f => ⟨f⟩
  let beforeQ := (breakAtChar '?' brk.1).1
  match afterSeq "://".data beforeQ with
  | none => (⟨beforeQ⟩, fragment)
  | some rest => (⟨rest.dropWhile (fun c => c != '/')⟩, fragment)

/-- Model of Python `.strip("/")`. -/
def stripChar (c : Char) (l : List Char) : List Char :=
  ((l.dropWhile (· == c)).reverse.dropWhile (· == c)).reverse

/-- Model of `"__".join(segments)`. -/
def joinUnderscore : List String → String
  | [] => ""
  | [s] => s
  | s :: t :: ts => s ++ "__" ++ joinUnderscore (t :: ts)

/-- The filename stem of a URL: slugified non-empty path segments (fallback
`index`), plus the slugified fragment when present, joined with `__`
(generate_docs_config.py:104-111). -/
def stemOf (url : String) : String :=
  let parsed := _urlparse url
  let path := stripChar '/' parsed.1.data
  let segments := ((path.splitOn '/').filter (fun p => p ≠ [])).map
    (fun p => _slugify_segment ⟨p⟩)
  let segments := if segments = [] then ["index"] else segments
  let segments := if parsed.2 ≠ "" then segments ++ [_slugify_segment parsed.2] else segments
  joinUnderscore segments

/-- Source `_url_to_filename` (generate_docs_config.py:103-121): the stem's
plain `.md` candidate, or — when the registry already holds it — the first
free numbered candidate above the stored counter.  Returns the chosen
filename together with the updated registry. -/
def _url_to_filename (url : String) (existing : List (String × Nat)) :
    String × List (String × Nat) :=
  let counter := (assocLookup existing (mkCand (stemOf url))).getD 0
  if counter = 0 then (mkCand (stemOf url), (mkCand (stemOf url), 1) :: existing)
  else
    let k := counter + 1 + Nat.find (freeCounter_exists (stemOf url) existing counter)
    (mkCandN (stemOf url) k, (mkCandN (stemOf url) k, k) :: existing)

/-- Every call returns a filename absent from the incoming registry and
records it with a non-zero counter value. -/
lemma _url_to_filename_spec (url : String) (existing : List (String × Nat))
    (hinv : ∀ p ∈ existing, p.2 ≠ 0) :
    assocLookup existing (_url_to_filename url existing).1 = none ∧
      ∃ m, m ≠ 0 ∧ (_url_to_filename url existing).2 =
        ((_url_to_filename url existing).1, m) :: existing := by
  by_cases hc : (assocLookup existing (mkCand (stemOf url))).getD 0 = 0
  · have hnone : assocLookup existing (mkCand (stemOf url)) = none := by
      cases hl : assocLookup existing (mkCand (stemOf url)) with
      | none => rfl
      | some v =>
        exfalso
        rw [hl] at hc
        simp only [Option.getD_some] at hc
        exact hinv _ (assocLookup_some_mem_pair _ _ _ hl) hc
    rw [_url_to_filename]
    simp only [hc, if_pos]
    exact ⟨hnone, 1, by norm_num, rfl⟩
  · rw [_url_to_filename]
    simp only [hc, if_neg, if_false]
    exact ⟨Nat.find_spec (freeCounter_exists (stemOf url) existing _), _, by omega, rfl⟩

/-- Source `sorted(set(urls))`: the deduplicated URLs in ascending
lexicographic order. -/
def sortedSet (urls : List String) : List String :=
  urls.toFinset.sort (· ≤ ·)

/-- The `for url in …: mapping[url] = _url_to_filename(url, filenames)` loop
of `build_mapping`, threading the registry. -/
def buildGo : List String → List (String × Nat) → List (String × String)
  | [], _ => []
  | u :: rest, existing =>
    let r := _url_to_filename u existing
    (u, r.1) :: buildGo rest r.2

/-- Source `build_mapping` (generate_docs_config.py:146-151). -/
def build_mapping (urls : List String) : List (String × String) :=
  buildGo (sortedSet urls) []

lemma buildGo_spec : ∀ (urls : List String) (existing : List (String × Nat)),
    (∀ p ∈ existing, p.2 ≠ 0) →
    ((buildGo urls existing).map Prod.snd).Nodup ∧
      ∀ name ∈ (buildGo urls existing).map Prod.snd, assocLookup existing name = none := by
  intro urls
  induction urls with
  | nil => exact fun _ _ => ⟨List.nodup_nil, by simp [buildGo]⟩
  | cons u rest ih =>
    intro existing hinv
    obtain ⟨hfresh, m, hm0, hm⟩ := _url_to_filename_spec u existing hinv
    have hinv' : ∀ p ∈ (_url_to_filename u existing).2, p.2 ≠ 0 := by
      rw [hm]
      intro p hp
      rcases List.mem_cons.mp hp with h1 | h1
      · rw [h1]
        exact hm0
      · exact hinv p h1
    obtain ⟨hnodup, hnone⟩ := ih (_url_to_filename u existing).2 hinv'
    constructor
    · rw [buildGo]
      simp only [List.map_cons, List.nodup_cons]
      refine ⟨?_, hnodup⟩
      intro hmem
      have := hnone _ hmem
      rw [hm, assocLookup] at this
      simp at this
    · rw [buildGo]
      simp only [List.map_cons]
      intro name hname
      rcases List.mem_cons.mp hname with h1 | h1
      · rw [h1]
        exact hfresh
      · have := hnone name h1
        rw [hm] at this
        exact assocLookup_cons_none _ _ _ _ this

/-- C4: within one `build_mapping` run no two URLs receive the same filename
— the mapping's values are pairwise distinct. -/
theorem c4_filenames_unique (urls : List String) :
    ((build_mapping urls).map Prod.snd).Nodup :=
  (buildGo_spec (sortedSet urls) [] (by simp)).1

lemma buildGo_keys : ∀ (urls : List String) (existing : List (String × Nat)),
    (buildGo urls existing).map Prod.fst = urls := by
  intro urls
  induction urls with
  | nil => intro existing; rfl
  | cons u rest ih =>
    intro existing
    rw [buildGo]
    simp only [List.map_cons, List.cons.injEq, eq_self_iff_true, true_and]
    exact ih _

/-- C3, amended: `gather_urls` itself returns the matching leaf URLs in
traversal order (see the counterexample), and it is `build_mapping` that
deduplicates and sorts — its key sequence is exactly the sorted,
deduplicated URL collection. -/
theorem c3_mapping_keys_sorted_dedup (urls : List String) :
    (build_mapping urls).map Prod.fst = sortedSet urls ∧
      List.Sorted (· ≤ ·) ((build_mapping urls).map Prod.fst) ∧
      ((build_mapping urls).map Prod.fst).Nodup ∧
      ∀ u, (u ∈ (build_mapping urls).map Prod.fst ↔ u ∈ urls) := by
  have hkeys : (build_mapping urls).map Prod.fst = sortedSet urls := buildGo_keys _ _
  refine ⟨hkeys, ?_, ?_, ?_⟩
  · rw [hkeys]
    exact Finset.sort_sorted _ _
  · rw [hkeys]
    exact Finset.sort_nodup _ _
  · intro u
    rw [hkeys, sortedSet, Finset.mem_sort, List.mem_toFinset]

/-- C9: the Filename Mapper is deterministic and independent of any
hash-ordering of its input collection: two inputs holding the same URLs (in
any order, with any duplication) produce identical mappings. -/
theorem c9_build_mapping_deterministic (l₁ l₂ : List String)
    (h : ∀ x, x ∈ l₁ ↔ x ∈ l₂) :
    build_mapping l₁ = build_mapping l₂ := by
  have hf : l₁.toFinset = l₂.toFinset := by
    apply Finset.ext
    intro x
    rw [List.mem_toFinset, List.mem_toFinset]
    exact h x
  rw [build_mapping, build_mapping, sortedSet, sortedSet, hf]

/-- Concrete instance of C9: the collections `[b, a, a]` and `[a, b]` hold
the same URLs, so their mappings coincide. -/
theorem c9_build_mapping_deterministic_witness :
    build_mapping ["https://e.com/docs/b", "https://e.com/docs/a", "https://e.com/docs/a"] =
      build_mapping ["https://e.com/docs/a", "https://e.com/docs/b"] :=
  c9_build_mapping_deterministic _ _ (by
    intro x
    constructor
    · intro hx
      rcases List.mem_cons.mp hx with h1 | hx
      · simp [h1]
      · rcases List.mem_cons.mp hx with h1 | hx
        · simp [h1]
        · rcases List.mem_cons.mp hx with h1 | hx
          · simp [h1]
          · cases hx
    · intro hx
      rcases List.mem_cons.mp hx with h1 | hx
      · simp [h1]
      · rcases List.mem_cons.mp hx with h1 | hx
        · simp [h1]
        · cases hx)

/-! ## Termination and cycle safety of the resolver (C6)

`unvisitedCount` is the termination measure: the number of known locations
not yet visited.  `gatherF_isSome` shows the fuel `bound w` chosen by
`gather_urls` can never run out — the source's termination argument — and
the congruence/filter lemmas show a self-referencing index contributes
nothing beyond its first expansion. -/

/-- Number of known locations not yet visited. -/
def unvisitedCount (w : Web) (v : List String) : Nat :=
  ((keysOf w).filter (fun k => decide (k ∉ v))).length

lemma filter_unvisited_mono (l : List String) (v v' : List String) (hsub : v ⊆ v') :
    (l.filter (fun k => decide (k ∉ v'))).length ≤ (l.filter (fun k => decide (k ∉ v))).length := by
  induction l with
  | nil => exact le_refl _
  | cons a t ih =>
    rw [List.filter_cons, List.filter_cons]
    by_cases ha' : a ∈ v'
    · rw [if_neg (by simp [ha'])]
      by_cases ha : a ∈ v
      · rw [if_neg (by simp [ha])]
        exact ih
      · rw [if_pos (by simp [ha])]
        exact le_trans ih (by simp)
    · have ha : a ∉ v := fun hc => ha' (hsub hc)
      rw [if_pos (by simp [ha']), if_pos (by simp [ha])]
      simpa using ih

lemma filter_unvisited_lt (l : List String) (s : String) (v : List String)
    (hmem : s ∈ l) (hnv : s ∉ v) :
    (l.filter (fun k => decide (k ∉ s :: v))).length <
      (l.filter (fun k => decide (k ∉ v))).length := by
  induction l with
  | nil => cases hmem
  | cons a t ih =>
    rw [List.filter_cons, List.filter_cons]
    by_cases has : a = s
    · subst has
      rw [if_neg (by simp), if_pos (by simp [hnv])]
      have := filter_unvisited_mono t v (a :: v) (List.subset_cons_self _ _)
      simpa using Nat.lt_succ_of_le this
    · have hmem' : s ∈ t := by
        rcases List.mem_cons.mp hmem with h1 | h1
        · exact absurd h1.symm has
        · exact h1
      by_cases ha : a ∈ v
      · rw [if_neg (by simp [ha]), if_neg (by simp [ha])]
        exact ih hmem'
      · rw [if_pos (by simp [has, ha]), if_pos (by simp [ha])]
        simpa using ih hmem'

lemma unvisitedCount_lt (w : Web) (s : String) (v : List String)
    (hmem : s ∈ keysOf w) (hnv : s ∉ v) :
    unvisitedCount w (s :: v) < unvisitedCount w v :=
  filter_unvisited_lt _ s v hmem hnv

lemma unvisitedCount_mono (w : Web) (v v' : List String) (h : v ⊆ v') :
    unvisitedCount w v' ≤ unvisitedCount w v :=
  filter_unvisited_mono _ v v' h

lemma gatherCombine_congr
    (first : Option (Except String (List String × List String)))
    (r₁F r₂F : List String → Option (Except String (List String × List String)))
    (P : List String → Prop)
    (hP : ∀ us v', first = some (Except.ok (us, v')) → P v')
    (h : ∀ u, P u → r₁F u = r₂F u) :
    gatherCombine first r₁F = gatherCombine first r₂F := by
  cases first with
  | none => rfl
  | some x =>
    cases x with
    | error msg => rfl
    | ok r =>
      obtain ⟨us, v'⟩ := r
      show (match r₁F v' with
        | none => none
        | some (Except.error msg) => some (Except.error msg)
        | some (Except.ok (us', v'')) => some (Except.ok (us ++ us', v''))) =
        (match r₂F v' with
        | none => none
        | some (Except.error msg) => some (Except.error msg)
        | some (Except.ok (us', v'')) => some (Except.ok (us ++ us', v'')))
      rw [h v' (hP us v' rfl)]

lemma gatherCombine_skip (v : List String)
    (restF : List String → Option (Except String (List String × List String))) :
    gatherCombine (some (Except.ok ([], v))) restF = restF v := by
  show (match restF v with
    | none => none
    | some (Except.error msg) => some (Except.error msg)
    | some (Except.ok (us', v'')) => some (Except.ok (([] : List String) ++ us', v''))) = restF v
  cases hr : restF v with
  | none => rfl
  | some x =>
    cases x with
    | error msg => rfl
    | ok r =>
      obtain ⟨us', v''⟩ := r
      simp

lemma gatherListAux_mono
    (g : String → List String → Option (Except String (List String × List String)))
    (hg : ∀ e u r, g e u = some (Except.ok r) → u ⊆ r.2) :
    ∀ (entries : List String) (v : List String) r,
      gatherListAux g entries v = some (Except.ok r) → v ⊆ r.2 := by
  intro entries
  induction entries with
  | nil =>
    intro v r h
    rw [gatherListAux] at h
    simp only [Option.some.injEq, Except.ok.injEq] at h
    rw [← h]
    exact fun x hx => hx
  | cons e rest ih =>
    intro v r h
    rw [gatherListAux] at h
    cases hg1 : g e v with
    | none =>
      rw [hg1] at h
      cases h
    | some x =>
      rw [hg1] at h
      cases x with
      | error msg =>
        have h' : some (Except.error msg) = some (Except.ok r) := h
        simp at h'
      | ok r₁ =>
        obtain ⟨us₁, v₁⟩ := r₁
        have hv₁ : v ⊆ v₁ := hg e v (us₁, v₁) hg1
        have h' : (match gatherListAux g rest v₁ with
            | none => none
            | some (Except.error msg) => some (Except.error msg)
            | some (Except.ok (us', v'')) =>
              some (Except.ok (us₁ ++ us', v''))) = some (Except.ok r) := h
        cases hg2 : gatherListAux g rest v₁ with
        | none =>
          rw [hg2] at h'
          cases h'
        | some x₂ =>
          rw [hg2] at h'
          cases x₂ with
          | error m => simp at h'
          | ok r₂ =>
            obtain ⟨us₂, v₂⟩ := r₂
            have hv₂ : v₁ ⊆ v₂ := ih v₁ (us₂, v₂) hg2
            have h'' : some (Except.ok ((us₁ ++ us₂ : List String), v₂)) =
                some (Except.ok r) := h'
            simp only [Option.some.injEq, Except.ok.injEq] at h''
            rw [← h'']
            exact fun x hx => hv₂ (hv₁ hx)

lemma gatherF_mono : ∀ (fuel : Nat) (w : Web) (p : List String) (s : String)
    (v : List String) r, gatherF fuel w p s v = some (Except.ok r) → v ⊆ r.2 := by
  intro fuel
  induction fuel with
  | zero =>
    intro w p s v r h
    cases h
  | succ fuel ih =>
    intro w p s v r h
    rw [gatherF] at h
    by_cases hv : s ∈ v
    · rw [if_pos hv] at h
      have h' : some (Except.ok (([] : List String), v)) = some (Except.ok r) := h
      simp only [Option.some.injEq, Except.ok.injEq] at h'
      rw [← h']
      exact fun x hx => hx
    · rw [if_neg hv] at h
      cases hlk : assocLookup w s with
      | none =>
        rw [hlk] at h
        have h' : some (Except.error ("Failed to fetch " ++ s)) = some (Except.ok r) := h
        simp at h'
      | some ke =>
        obtain ⟨kind, entries⟩ := ke
        rw [hlk, gatherStep] at h
        by_cases hk : kind = "index"
        · rw [if_pos hk] at h
          have := gatherListAux_mono (gatherF fuel w p) (fun e u r' => ih w p e u r')
            entries (s :: v) r h
          exact fun x hx => this (List.mem_cons_of_mem _ hx)
        · rw [if_neg hk] at h
          simp only [Option.some.injEq, Except.ok.injEq] at h
          rw [← h]
          exact fun x hx => List.mem_cons_of_mem _ hx

lemma gatherListAux_isSome
    (g : String → List String → Option (Except String (List String × List String)))
    (hg : ∀ e u r, g e u = some (Except.ok r) → u ⊆ r.2) :
    ∀ (entries : List String) (v : List String),
      (∀ e u, v ⊆ u → (g e u).isSome = true) →
      (gatherListAux g entries v).isSome = true := by
  intro entries
  induction entries with
  | nil =>
    intro v _
    rw [gatherListAux]
    rfl
  | cons e rest ih =>
    intro v hsome
    rw [gatherListAux]
    cases hg1 : g e v with
    | none =>
      have := hsome e v (fun x hx => hx)
      rw [hg1] at this
      cases this
    | some x =>
      cases x with
      | error msg => rfl
      | ok r₁ =>
        obtain ⟨us₁, v₁⟩ := r₁
        have hv₁ : v ⊆ v₁ := hg e v (us₁, v₁) hg1
        have hrest := ih v₁ (fun e' u hu => hsome e' u (fun x hx => hu (hv₁ hx)))
        show (match gatherListAux g rest v₁ with
          | none => none
          | some (Except.error msg) => some (Except.error msg)
          | some (Except.ok (us', v'')) =>
            some (Except.ok (us₁ ++ us', v''))).isSome = true
        cases hg2 : gatherListAux g rest v₁ with
        | none =>
          rw [hg2] at hrest
          cases hrest
        | some x₂ =>
          cases x₂ with
          | error m => rfl
          | ok r₂ =>
            obtain ⟨us₂, v₂⟩ := r₂
            rfl

lemma gatherF_isSome : ∀ (fuel : Nat) (w : Web) (p : List String) (s : String)
    (v : List String), unvisitedCount w v < fuel → (gatherF fuel w p s v).isSome = true := by
  intro fuel
  induction fuel with
  | zero =>
    intro w p s v h
    exact absurd h (Nat.not_lt_zero _)
  | succ fuel ih =>
    intro w p s v h
    rw [gatherF]
    by_cases hv : s ∈ v
    · rw [if_pos hv]
      rfl
    · rw [if_neg hv]
      cases hlk : assocLookup w s with
      | none => rfl
      | some ke =>
        obtain ⟨kind, entries⟩ := ke
        rw [gatherStep]
        by_cases hk : kind = "index"
        · rw [if_pos hk]
          have hmem : s ∈ keysOf w :=
            assocLookup_ne_none_mem w s (by rw [hlk]; exact fun hc => Option.noConfusion hc)
          have hlt : unvisitedCount w (s :: v) < fuel := by
            have h1 := unvisitedCount_lt w s v hmem hv
            omega
          apply gatherListAux_isSome (gatherF fuel w p) (fun e u r' => gatherF_mono fuel w p e u r')
          intro e u hu
          apply ih
          have := unvisitedCount_mono w (s :: v) u hu
          omega
        · rw [if_neg hk]
          rfl

lemma gatherListAux_congr
    (g₁ g₂ : String → List String → Option (Except String (List String × List String)))
    (s₀ : String)
    (hg : ∀ e u, s₀ ∈ u → g₁ e u = g₂ e u)
    (hmono : ∀ e u r, g₁ e u = some (Except.ok r) → u ⊆ r.2) :
    ∀ (entries : List String) (v : List String), s₀ ∈ v →
      gatherListAux g₁ entries v = gatherListAux g₂ entries v := by
  intro entries
  induction entries with
  | nil =>
    intro v _
    rfl
  | cons e rest ih =>
    intro v hv
    rw [gatherListAux, gatherListAux, ← hg e v hv]
    exact gatherCombine_congr (g₁ e v) _ _ (fun u => s₀ ∈ u)
      (fun us v' h1 => hmono e v (us, v') h1 hv)
      (fun u hu => ih u hu)

lemma gatherF_web_congr (w w' : Web) (p : List String) (s₀ : String)
    (hagree : ∀ x, x ≠ s₀ → assocLookup w x = assocLookup w' x) :
    ∀ (fuel : Nat) (s : String) (v : List String), s₀ ∈ v →
      gatherF fuel w p s v = gatherF fuel w' p s v := by
  intro fuel
  induction fuel with
  | zero =>
    intro s v _
    rfl
  | succ fuel ih =>
    intro s v hv
    rw [gatherF, gatherF]
    by_cases hsv : s ∈ v
    · rw [if_pos hsv, if_pos hsv]
    · rw [if_neg hsv, if_neg hsv]
      have hne : s ≠ s₀ := fun hc => hsv (hc ▸ hv)
      rw [← hagree s hne]
      cases hlk : assocLookup w s with
      | none => rfl
      | some ke =>
        obtain ⟨kind, entries⟩ := ke
        rw [gatherStep, gatherStep]
        by_cases hk : kind = "index"
        · rw [if_pos hk, if_pos hk]
          exact gatherListAux_congr _ _ s₀ (fun e u hu => ih e u hu)
            (fun e u r' => gatherF_mono fuel w p e u r') entries (s :: v)
            (List.mem_cons_of_mem _ hv)
        · rw [if_neg hk, if_neg hk]

lemma gatherListAux_filter_visited
    (g : String → List String → Option (Except String (List String × List String)))
    (v₀ : List String)
    (hskip : ∀ e u, e ∈ v₀ → v₀ ⊆ u → g e u = some (Except.ok ([], u)))
    (hmono : ∀ e u r, g e u = some (Except.ok r) → u ⊆ r.2) :
    ∀ (entries : List String) (v : List String), v₀ ⊆ v →
      gatherListAux g (entries.filter (fun e => decide (e ∉ v₀))) v =
        gatherListAux g entries v := by
  intro entries
  induction entries with
  | nil =>
    intro v _
    rfl
  | cons e rest ih =>
    intro v hv
    rw [List.filter_cons]
    by_cases he : e ∈ v₀
    · rw [if_neg (by simp [he])]
      rw [ih v hv]
      conv_rhs => rw [gatherListAux]
      rw [hskip e v he hv, gatherCombine_skip]
    · rw [if_pos (by simp [he])]
      rw [gatherListAux, gatherListAux]
      exact gatherCombine_congr (g e v) _ _ (fun u => v₀ ⊆ u)
        (fun us v' h1 => fun x hx => hmono e v (us, v') h1 (hv hx))
        (fun u hu => ih u hu)

/-- Replace the parsed document stored for one location. -/
def updateWeb (w : Web) (s : String) (val : String × List String) : Web :=
  w.map (fun p => if p.1 = s then (s, val) else p)

lemma keysOf_updateWeb : ∀ (w : Web) (s : String) (val : String × List String),
    keysOf (updateWeb w s val) = keysOf w := by
  intro w
  induction w with
  | nil => intro s val; rfl
  | cons p t ih =>
    intro s val
    obtain ⟨k, z⟩ := p
    show ((if k = s then (s, val) else (k, z)) :: updateWeb t s val).map Prod.fst =
      k :: keysOf t
    by_cases hk : k = s
    · rw [if_pos hk, List.map_cons]
      exact congrArg₂ _ hk.symm (ih s val)
    · rw [if_neg hk, List.map_cons]
      exact congrArg _ (ih s val)

lemma assocLookup_updateWeb_ne : ∀ (w : Web) (s x : String) (val : String × List String),
    x ≠ s → assocLookup (updateWeb w s val) x = assocLookup w x := by
  intro w
  induction w with
  | nil => intro s x val _; rfl
  | cons p t ih =>
    intro s x val hx
    obtain ⟨k, z⟩ := p
    show assocLookup ((if k = s then (s, val) else (k, z)) :: updateWeb t s val) x =
      assocLookup ((k, z) :: t) x
    by_cases hk : k = s
    · rw [if_pos hk, assocLookup, assocLookup, if_neg hx, if_neg (hk ▸ hx)]
      exact ih s x val hx
    · rw [if_neg hk, assocLookup, assocLookup]
      by_cases hxk : x = k
      · rw [if_pos hxk, if_pos hxk]
      · rw [if_neg hxk, if_neg hxk]
        exact ih s x val hx

lemma assocLookup_updateWeb_self : ∀ (w : Web) (s : String) (val y : String × List String),
    assocLookup w s = some y → assocLookup (updateWeb w s val) s = some val := by
  intro w
  induction w with
  | nil => intro s val y h; cases h
  | cons p t ih =>
    intro s val y h
    obtain ⟨k, z⟩ := p
    show assocLookup ((if k = s then (s, val) else (k, z)) :: updateWeb t s val) s = some val
    by_cases hk : k = s
    · rw [if_pos hk, assocLookup, if_pos rfl]
    · rw [if_neg hk, assocLookup, if_neg (fun hc : s = k => hk hc.symm)]
      rw [assocLookup, if_neg (fun hc : s = k => hk hc.symm)] at h
      exact ih s val y h

/-- C6: the Resolver terminates and is cycle safe.  (1) For every finite
world the fuel chosen by `gather_urls` never runs out, so the traversal
terminates even on cyclic or duplicated index references; (2) the Visited
Set guarantees an already-expanded location is never expanded again — it
contributes `[]` and leaves the state unchanged; (3) self-references inside
an index document are inert: removing every self-entry from the stored index
leaves the result of `gather_urls` unchanged, so a self-referencing index
causes no duplicate entries. -/
theorem c6_termination_and_cycle_safety :
    (∀ (w : Web) (p : List String) (s : String), (gatherF (bound w) w p s []).isSome = true) ∧
      (∀ (fuel : Nat) (w : Web) (p : List String) (s : String) (v : List String),
        s ∈ v → gatherF (fuel + 1) w p s v = some (Except.ok ([], v))) ∧
      ∀ (w : Web) (p : List String) (s : String) (entries : List String),
        assocLookup w s = some ("index", entries) →
        gather_urls w p s =
          gather_urls (updateWeb w s ("index", entries.filter (fun e => decide (e ≠ s)))) p s := by
  refine ⟨?_, ?_, ?_⟩
  · intro w p s
    apply gatherF_isSome
    rw [bound, unvisitedCount]
    have hself : (keysOf w).filter (fun k => decide (k ∉ ([] : List String))) = keysOf w := by
      apply List.filter_eq_self.mpr
      intro a _
      simp
    rw [hself]
    omega
  · intro fuel w p s v hv
    rw [gatherF, if_pos hv]
  · intro w p s entries hlk
    have hkeys := keysOf_updateWeb w s ("index", entries.filter (fun e => decide (e ≠ s)))
    have hlk' := assocLookup_updateWeb_self w s
      ("index", entries.filter (fun e => decide (e ≠ s))) _ hlk
    have hmem : s ∈ keysOf w :=
      assocLookup_ne_none_mem w s (by rw [hlk]; exact fun hc => Option.noConfusion hc)
    obtain ⟨L, hL⟩ : ∃ L, (keysOf w).length = L + 1 := by
      cases hx : (keysOf w).length with
      | zero =>
        rw [List.length_eq_zero] at hx
        rw [hx] at hmem
        cases hmem
      | succ L => exact ⟨L, rfl⟩
    have hagree : ∀ x, x ≠ s →
        assocLookup w x =
          assocLookup (updateWeb w s ("index", entries.filter (fun e => decide (e ≠ s)))) x :=
      fun x hx => (assocLookup_updateWeb_ne w s x _ hx).symm
    have hfeq : entries.filter (fun e => decide (e ≠ s)) =
        entries.filter (fun e => decide (e ∉ ([s] : List String))) := by
      apply List.filter_congr
      intro a _
      simp
    have hskip : ∀ e u, e ∈ ([s] : List String) → ([s] : List String) ⊆ u →
        gatherF (L + 1) w p e u = some (Except.ok ([], u)) := by
      intro e u he hu
      rw [gatherF, if_pos (hu he)]
    have hmonoW : ∀ e u r', gatherF (L + 1) w p e u = some (Except.ok r') → u ⊆ r'.2 :=
      fun e u r' => gatherF_mono (L + 1) w p e u r'
    have stepC := gatherListAux_filter_visited (gatherF (L + 1) w p) [s] hskip hmonoW
      entries [s] (fun x hx => hx)
    have stepB := gatherListAux_congr (gatherF (L + 1) w p)
      (gatherF (L + 1) (updateWeb w s ("index", entries.filter (fun e => decide (e ≠ s)))) p) s
      (fun e u hu => gatherF_web_congr w _ p s hagree (L + 1) e u hu)
      hmonoW
      (entries.filter (fun e => decide (e ≠ s))) [s] (by simp)
    have hmain : gatherF (bound w) w p s [] =
        gatherF (bound (updateWeb w s ("index", entries.filter (fun e => decide (e ≠ s)))))
          (updateWeb w s ("index", entries.filter (fun e => decide (e ≠ s)))) p s [] := by
      rw [bound, bound, hkeys, hL]
      rw [gatherF, gatherF, if_neg (List.not_mem_nil s), if_neg (List.not_mem_nil s)]
      rw [hlk, hlk', gatherStep, gatherStep, if_pos rfl, if_pos rfl]
      conv_lhs => rw [← stepC, ← hfeq]
      exact stepB
    rw [gather_urls, gather_urls, hmain]

/-- Concrete instance of C6: a world whose root index references itself and a
leaf urlset.  The traversal completes, a second visit of `root` is skipped,
removing the self-reference leaves the result unchanged, and the final
result holds the leaf URL exactly once. -/
theorem c6_termination_and_cycle_safety_witness :
    (gatherF (bound [("root", ("index", ["root", "leaf"])),
        ("leaf", ("urlset", ["https://e.com/docs/a"]))])
      [("root", ("index", ["root", "leaf"])), ("leaf", ("urlset", ["https://e.com/docs/a"]))]
      ["https://e.com/docs/"] "root" []).isSome = true ∧
      gatherF 1 [("root", ("index", ["root", "leaf"])),
          ("leaf", ("urlset", ["https://e.com/docs/a"]))]
        ["https://e.com/docs/"] "root" ["root"] = some (Except.ok ([], ["root"])) ∧
      gather_urls [("root", ("index", ["root", "leaf"])),
          ("leaf", ("urlset", ["https://e.com/docs/a"]))] ["https://e.com/docs/"] "root" =
        gather_urls (updateWeb [("root", ("index", ["root", "leaf"])),
            ("leaf", ("urlset", ["https://e.com/docs/a"]))] "root"
            ("index", ["root", "leaf"].filter (fun e => decide (e ≠ "root"))))
          ["https://e.com/docs/"] "root" ∧
      gather_urls [("root", ("index", ["root", "leaf"])),
          ("leaf", ("urlset", ["https://e.com/docs/a"]))] ["https://e.com/docs/"] "root" =
        Except.ok ["https://e.com/docs/a"] :=
  ⟨c6_termination_and_cycle_safety.1 _ _ _,
   c6_termination_and_cycle_safety.2.1 0 _ _ "root" ["root"] (by simp),
   c6_termination_and_cycle_safety.2.2 _ _ "root" ["root", "leaf"] (by rfl),
   by rfl⟩

/-! ## `main` and the CLI wrapper (generate_docs_config.py:183-212) -/

/-- Source `DEFAULT_ALLOWED_PREFIXES` (generate_docs_config.py:39-43). -/
def DEFAULT_ALLOWED_PREFIXES : List String :=
  ["https://developer.apple.com/documentation/",
   "https://developer.apple.com/tutorials/",
   "https://developer.apple.com/design/human-interface-guidelines/"]

/-- The prefixes `main` uses: the `--allow-prefix` arguments when given (a
truthy, i.e. non-empty, list), else the defaults
(generate_docs_config.py:185-189). -/
def prefixesOf (allowedPrefixes : Option (List String)) : List String :=
  match allowedPrefixes with
  | none => DEFAULT_ALLOWED_PREFIXES
  | some ps => if ps = [] then DEFAULT_ALLOWED_PREFIXES else ps

/-- Source `main` (generate_docs_config.py:183-204): gather the URLs, raise
the empty-result `SitemapError` when none were discovered, otherwise build
(and persist) the mapping.  The returned mapping models the written
artifact; an error means nothing was written. -/
def mainModel (w : Web) (source : String) (allowedPrefixes : Option (List String)) :
    Except String (List (String × String)) :=
  match gather_urls w (prefixesOf allowedPrefixes) source with
  | Except.error e => Except.error e
  | Except.ok urls =>
    if urls = [] then
      Except.error "No URLs discovered. Check the sitemap source or allowed prefixes."
    else Except.ok (build_mapping urls)

/-- The `if __name__ == "__main__"` wrapper (generate_docs_config.py:207-212):
exit status, written artifact (if any), and the one-line diagnostic. -/
def runModel (w : Web) (source : String) (allowedPrefixes : Option (List String)) :
    Nat × Option (List (String × String)) × String :=
  match mainModel w source allowedPrefixes with
  | Except.ok m => (0, some m, "Wrote " ++ natRepr m.length ++ " entries")
  | Except.error e => (1, none, "error: " ++ e)

/-- C8: whenever traversal and filtering discover zero URLs, `main` raises
the empty-result `SitemapError` before writing any output, and the process
prints a one-line error message and exits with status 1. -/
theorem c8_empty_result_error (w : Web) (source : String)
    (allowedPrefixes : Option (List String))
    (h : gather_urls w (prefixesOf allowedPrefixes) source = Except.ok []) :
    mainModel w source allowedPrefixes =
        Except.error "No URLs discovered. Check the sitemap source or allowed prefixes." ∧
      runModel w source allowedPrefixes =
        (1, none,
          "error: No URLs discovered. Check the sitemap source or allowed prefixes.") := by
  have hmain : mainModel w source allowedPrefixes =
      Except.error "No URLs discovered. Check the sitemap source or allowed prefixes." := by
    rw [mainModel, h]
    simp
  exact ⟨hmain, by rw [runModel, hmain]; rfl⟩

/-- Concrete instance of C8: a urlset whose only entry matches no allowed
prefix discovers zero URLs, so the run writes nothing and exits with
status 1. -/
theorem c8_empty_result_error_witness :
    mainModel [("root", ("urlset", ["https://other.example/x"]))] "root"
        (some ["https://example.com/docs/"]) =
        Except.error "No URLs discovered. Check the sitemap source or allowed prefixes." ∧
      runModel [("root", ("urlset", ["https://other.example/x"]))] "root"
        (some ["https://example.com/docs/"]) =
        (1, none,
          "error: No URLs discovered. Check the sitemap source or allowed prefixes.") :=
  c8_empty_result_error [("root", ("urlset", ["https://other.example/x"]))] "root"
    (some ["https://example.com/docs/"]) (by rfl)

end DocsConfig
